import Mathlib

/-!
Shallow embedding of `src/calculator_utils.js`.

JavaScript numbers are modelled by `JSVal`: an exact rational together with
the IEEE special values `NaN`, `Infinity` and `-Infinity`.  Arithmetic is
exact rational arithmetic plus the JavaScript special-value rules; rounding
of doubles is not modelled, so properties that the spec states "within
floating-point tolerance" become exact equalities of rationals here.
The transcendental library functions (`Math.sin`, ...) have no exact
rational meaning, so they are parameters of the development (a `MathLib`
record); the constants `Math.PI` / `Math.E` are the exact rational values
of the corresponding IEEE doubles.  Strings are `List Char` internally,
`String` at the API, and all recursion is structural (fuel-indexed where
the source iterates over text), so every definition evaluates by `rfl` /
`decide` on concrete inputs.
-/

/-- A JavaScript number: a finite (exact rational) value or a special value. -/
inductive JSVal where
  | num (q : ℚ)
  | nan
  | inf
  | ninf
deriving DecidableEq

namespace JSVal

/-- Models `Number.isFinite` (line 60 / 118 of the source). -/
def isFinite : JSVal → Bool
  | num _ => true
  | _ => false

/-- JavaScript `+` on numbers. -/
def add : JSVal → JSVal → JSVal
  | num a, num b => num (a + b)
  | nan, _ => nan
  | _, nan => nan
  | inf, ninf => nan
  | ninf, inf => nan
  | inf, _ => inf
  | _, inf => inf
  | ninf, _ => ninf
  | _, ninf => ninf

/-- JavaScript unary `-` on numbers. -/
def neg : JSVal → JSVal
  | num a => num (-a)
  | nan => nan
  | inf => ninf
  | ninf => inf

/-- JavaScript binary `-` on numbers. -/
def sub (a b : JSVal) : JSVal := a.add b.neg

/-- JavaScript `*` on numbers. -/
def mul : JSVal → JSVal → JSVal
  | num a, num b => num (a * b)
  | nan, _ => nan
  | _, nan => nan
  | inf, inf => inf
  | inf, ninf => ninf
  | ninf, inf => ninf
  | ninf, ninf => inf
  | inf, num b => if b = 0 then nan else if 0 < b then inf else ninf
  | num a, inf => if a = 0 then nan else if 0 < a then inf else ninf
  | ninf, num b => if b = 0 then nan else if 0 < b then ninf else inf
  | num a, ninf => if a = 0 then nan else if 0 < a then ninf else inf

/-- JavaScript `/` on numbers (the model has a single zero, the JavaScript value `+0`). -/
def div : JSVal → JSVal → JSVal
  | num a, num b =>
      if b = 0 then (if a = 0 then nan else if 0 < a then inf else ninf)
      else num (a / b)
  | nan, _ => nan
  | _, nan => nan
  | inf, inf => nan
  | inf, ninf => nan
  | ninf, inf => nan
  | ninf, ninf => nan
  | num _, inf => num 0
  | num _, ninf => num 0
  | inf, num b => if 0 ≤ b then inf else ninf
  | ninf, num b => if 0 ≤ b then ninf else inf

/-- JavaScript `**` on numbers.  Integer exponents are exact; a non-integer
exponent on a positive base yields an irrational real, which has no value in
the rational model and is mapped to `nan` (no claim exercises that corner;
JavaScript itself yields `NaN` for a negative base with non-integer
exponent). -/
def pow : JSVal → JSVal → JSVal
  | _, num 0 => num 1
  | nan, _ => nan
  | _, nan => nan
  | num a, num b =>
      if b.den = 1 then
        (if 0 ≤ b.num then num (a ^ b.num.toNat)
         else if a = 0 then inf
         else num (a ^ b.num))
      else nan
  | inf, num b => if 0 < b then inf else num 0
  | ninf, num b =>
      if 0 < b then (if b.den = 1 ∧ b.num % 2 = 1 then ninf else inf)
      else num 0
  | num a, inf => if 1 < |a| then inf else if |a| = 1 then nan else num 0
  | num a, ninf => if 1 < |a| then num 0 else if |a| = 1 then nan else inf
  | inf, inf => inf
  | inf, ninf => num 0
  | ninf, inf => inf
  | ninf, ninf => num 0

/-- Models `Math.abs`. -/
def absOp : JSVal → JSVal
  | num a => num |a|
  | nan => nan
  | inf => inf
  | ninf => inf

/-- Models `Math.floor`. -/
def floorOp : JSVal → JSVal
  | num a => num (Int.floor a)
  | v => v

/-- Models `Math.ceil`. -/
def ceilOp : JSVal → JSVal
  | num a => num (Int.ceil a)
  | v => v

/-- Models `Math.round` (= floor of `x + 1/2`, ties away from negative infinity). -/
def roundOp : JSVal → JSVal
  | num a => num (Int.floor (a + (1 : ℚ)/2))
  | v => v

/-- Order test used by `min`/`max` for non-`NaN` operands. -/
def leVal : JSVal → JSVal → Bool
  | num a, num b => decide (a ≤ b)
  | ninf, _ => true
  | _, inf => true
  | inf, num _ => false
  | inf, ninf => false
  | num _, ninf => false
  | nan, _ => false
  | _, nan => false

/-- Models `Math.min` on two arguments. -/
def minOp (a b : JSVal) : JSVal :=
  if a = nan ∨ b = nan then nan else if leVal a b then a else b

/-- Models `Math.max` on two arguments. -/
def maxOp (a b : JSVal) : JSVal :=
  if a = nan ∨ b = nan then nan else if leVal a b then b else a

end JSVal

/-- A JavaScript value as far as the `typeof` tests of `buildVariableContext` can
see it: a string, a number, or anything else (`undefined`, `null`, objects,
booleans, ...).  A `null`/`undefined` list entry behaves, through the
optional chaining `variable?.name`, exactly like an entry whose fields are
not a string / not a number, so it is covered by `other`. -/
inductive JSAny where
  | str (s : String)
  | num (v : JSVal)
  | other
deriving DecidableEq

/-- One element of the caller-supplied `variables` array (fields `name`,
`value`, each an arbitrary JavaScript value). -/
structure VarEntry where
  name : JSAny
  value : JSAny
deriving DecidableEq

/-- One iteration of the `variables.forEach` loop (lines 38–42): insert the
binding when the name is typed as a string and the value as a number,
else leave the mapping unchanged. -/
def bvcStep (ctx : String → Option JSVal) (v : VarEntry) : String → Option JSVal :=
  match v.name, v.value with
  | JSAny.str n, JSAny.num x => fun m => if m = n then some x else ctx m
  | _, _ => ctx

/-- Models `buildVariableContext` (source lines 36–44): a mapping, represented as a
lookup function; later entries overwrite earlier ones.  (`variables` is a
reserved word in Lean, hence the binder name `vars`.) -/
def buildVariableContext (vars : List VarEntry) : String → Option JSVal :=
  vars.foldl bvcStep (fun _ => none)

/-- A value stored in the merged evaluation context: a number, or a library
function of arity 1 or 2. -/
inductive CtxVal where
  | val (v : JSVal)
  | fn1 (f : JSVal → JSVal)
  | fn2 (f : JSVal → JSVal → JSVal)

/-- The transcendental entries of the `safeMath` table.  They are genuine
IEEE-double functions in the source and have no exact rational counterpart,
so the development is parametric in them. -/
structure MathLib where
  sin : JSVal → JSVal
  cos : JSVal → JSVal
  tan : JSVal → JSVal
  sqrt : JSVal → JSVal
  exp : JSVal → JSVal
  ln : JSVal → JSVal
  log : JSVal → JSVal
  asin : JSVal → JSVal
  acos : JSVal → JSVal
  atan : JSVal → JSVal
  sinh : JSVal → JSVal
  cosh : JSVal → JSVal
  tanh : JSVal → JSVal

/-- A default interpretation of the transcendental entries (used for the
concrete test-point claims, none of which calls a transcendental function
whose value matters). -/
def mathLib0 : MathLib :=
  ⟨fun _ => JSVal.nan, fun _ => JSVal.nan, fun _ => JSVal.nan, fun _ => JSVal.nan,
   fun _ => JSVal.nan, fun _ => JSVal.nan, fun _ => JSVal.nan, fun _ => JSVal.nan,
   fun _ => JSVal.nan, fun _ => JSVal.nan, fun _ => JSVal.nan, fun _ => JSVal.nan,
   fun _ => JSVal.nan⟩

/-- The exact rational value of the IEEE double `Math.PI`. -/
def piVal : ℚ := (884279719003555 : ℚ) / 281474976710656

/-- The exact rational value of the IEEE double `Math.E`. -/
def eVal : ℚ := (6121026514868073 : ℚ) / 2251799813685248

/-- The `safeMath` table (source lines 1–24) as a name lookup. -/
def safeMathLookup (L : MathLib) (n : String) : Option CtxVal :=
  if n = "sin" then some (CtxVal.fn1 L.sin)
  else if n = "cos" then some (CtxVal.fn1 L.cos)
  else if n = "tan" then some (CtxVal.fn1 L.tan)
  else if n = "sqrt" then some (CtxVal.fn1 L.sqrt)
  else if n = "abs" then some (CtxVal.fn1 JSVal.absOp)
  else if n = "exp" then some (CtxVal.fn1 L.exp)
  else if n = "ln" then some (CtxVal.fn1 L.ln)
  else if n = "log" then some (CtxVal.fn1 L.log)
  else if n = "PI" then some (CtxVal.val (JSVal.num piVal))
  else if n = "E" then some (CtxVal.val (JSVal.num eVal))
  else if n = "pow" then some (CtxVal.fn2 JSVal.pow)
  else if n = "asin" then some (CtxVal.fn1 L.asin)
  else if n = "acos" then some (CtxVal.fn1 L.acos)
  else if n = "atan" then some (CtxVal.fn1 L.atan)
  else if n = "sinh" then some (CtxVal.fn1 L.sinh)
  else if n = "cosh" then some (CtxVal.fn1 L.cosh)
  else if n = "tanh" then some (CtxVal.fn1 L.tanh)
  else if n = "floor" then some (CtxVal.fn1 JSVal.floorOp)
  else if n = "ceil" then some (CtxVal.fn1 JSVal.ceilOp)
  else if n = "round" then some (CtxVal.fn1 JSVal.roundOp)
  else if n = "min" then some (CtxVal.fn2 JSVal.minOp)
  else if n = "max" then some (CtxVal.fn2 JSVal.maxOp)
  else none

/-- The merged evaluation context
`{ ...safeMath, ...varContext, [independentVar]: xValue }` (source lines 57
and 115): the independent-variable binding shadows the variable mapping,
which shadows the library. -/
def mkContext (L : MathLib) (vc : String → Option JSVal) (iv : String)
    (x : JSVal) : String → Option CtxVal :=
  fun n =>
    if n = iv then some (CtxVal.val x)
    else
      match vc n with
      | some v => some (CtxVal.val v)
      | none => safeMathLookup L n

/-- The `Number.isFinite(result) ? result : null` step (lines 60 and 118),
with `none` standing for both the null sentinel and a caught exception. -/
def finiteFilter : Option JSVal → Option JSVal
  | some v => if v.isFinite then some v else none
  | none => none

/-! ## The expression normalizer (`preprocessExpression`, source lines 26–34)

Each `String.replace(regex, ...)` call scans left to right; a match consumes
its matched characters and scanning resumes after them.  Rules 2–6 match two
adjacent characters, rule 1 and rule 7 match one character (rule 7 with a
non-consuming lookahead). -/

/-- Two-adjacent-character rewrite `ab ↦ a*b` for the pairs selected by `g`:
the common shape of rules 2–5 (`/(\d)([a-z])/gi`, `/\)(\d)/g`, `/(\d)\(/g`,
`/\)\(/g`). -/
def star2 (g : Char → Char → Bool) : List Char → List Char
  | a :: b :: t => if g a b then a :: '*' :: b :: star2 g t else a :: star2 g (b :: t)
  | l => l

/-- Rule 1: `/\^/g` rewritten to `**`. -/
def caretRule : List Char → List Char
  | [] => []
  | c :: t => if c == '^' then '*' :: '*' :: caretRule t else c :: caretRule t

/-- The regex class `\d` = `[0-9]`. -/
def isDigitC (c : Char) : Bool := decide ('0' ≤ c) && decide (c ≤ '9')

/-- The regex class `[a-z]` under the `i` flag = `[a-zA-Z]`. -/
def isAlphaC (c : Char) : Bool :=
  (decide ('a' ≤ c) && decide (c ≤ 'z')) || (decide ('A' ≤ c) && decide (c ≤ 'Z'))

/-- Pair test of rule 2: a digit immediately followed by an ASCII letter
(the `i` flag makes `[a-z]` case-insensitive). -/
def digitLetterGuard (a b : Char) : Bool := isDigitC a && isAlphaC b

/-- Pair test of rule 3: a closing parenthesis immediately followed by a digit. -/
def parenDigitGuard (a b : Char) : Bool := a == ')' && isDigitC b

/-- Pair test of rule 4: a digit immediately followed by an opening parenthesis. -/
def digitParenGuard (a b : Char) : Bool := isDigitC a && b == '('

/-- Pair test of rule 5: a closing immediately followed by an opening parenthesis. -/
def parenParenGuard (a b : Char) : Bool := a == ')' && b == '('

/-- Matches `p` or `P`. -/
def pish (a : Char) : Bool := a == 'p' || a == 'P'

/-- Matches `i` or `I`. -/
def iish (b : Char) : Bool := b == 'i' || b == 'I'

/-- Rule 6: `/pi/gi` rewritten to `PI`. -/
def piRule : List Char → List Char
  | a :: b :: t =>
      if pish a && iish b then 'P' :: 'I' :: piRule t
      else a :: piRule (b :: t)
  | l => l

/-- Matches `e` or `E`. -/
def eish (a : Char) : Bool := a == 'e' || a == 'E'

/-- The character class `[a-df-z]` under the `i` flag: an ASCII letter other
than `e`/`E`. -/
def eExcluded (b : Char) : Bool := isAlphaC b && !(b == 'e' || b == 'E')

/-- Lookahead of rule 7, the class `(?![a-df-z])`, applied to the text after the `e`. -/
def eLookaheadOk : List Char → Bool
  | [] => true
  | b :: _ => !(eExcluded b)

/-- Rule 7: `/e(?![a-df-z])/gi → 'E'` (the lookahead consumes nothing). -/
def eRule : List Char → List Char
  | [] => []
  | a :: t => (if eish a && eLookaheadOk t then 'E' else a) :: eRule t

/-- The seven rules in source order, on character lists. -/
def preChain (l : List Char) : List Char :=
  eRule (piRule (star2 parenParenGuard (star2 digitParenGuard
    (star2 parenDigitGuard (star2 digitLetterGuard (caretRule l))))))

/-- Models `preprocessExpression` (source lines 26–34). -/
def preprocessExpression (s : String) : String := String.mk (preChain s.data)

/-! ## Tokenizer and parser for the normalized text

`new Function(...names, "return " + expr)` compiles the normalized text as a
JavaScript expression over the context names and a thrown error is caught to
`null`.  The embedding parses the arithmetic sub-grammar the calculator
uses: decimal literals, identifiers, calls, `+ - * / **`, unary `+`/`-`,
parentheses and argument commas; text outside this sub-grammar evaluates to
`none`, as the thrown `SyntaxError` does in the source. -/

inductive Tok where
  | num (q : ℚ)
  | ident (s : String)
  | plus
  | minus
  | star
  | slash
  | dstar
  | lparen
  | rparen
  | comma
deriving DecidableEq

/-- Whitespace skipped by the JavaScript lexer. -/
def isWS (c : Char) : Bool := c == ' ' || c == '\t' || c == '\n' || c == '\r'

/-- An identifier continuation character. -/
def isIdentChar (c : Char) : Bool := c.isAlphanum || c == '_' || c == '$'

/-- Value of a digit run, most significant first. -/
def digitsVal (l : List Char) : ℕ := l.foldl (fun n c => 10 * n + (c.toNat - '0'.toNat)) 0

/-- Lex one decimal literal (`123`, `1.5`, `.5`, `5.`), returning its exact
rational value and the rest of the text. -/
def lexNumber (cs : List Char) : Option (ℚ × List Char) :=
  let ip := cs.takeWhile Char.isDigit
  let r1 := cs.dropWhile Char.isDigit
  match r1 with
  | '.' :: r2 =>
      let fp := r2.takeWhile Char.isDigit
      let r3 := r2.dropWhile Char.isDigit
      if ip = [] ∧ fp = [] then none
      else some ((digitsVal ip : ℚ) + (digitsVal fp : ℚ) / (10 ^ fp.length), r3)
  | _ => if ip = [] then none else some ((digitsVal ip : ℚ), r1)

/-- Fuel-indexed lexer; every step consumes at least one character, so fuel
`length + 1` (as supplied by `tokenizeTop`) never runs out. -/
def tokenize : ℕ → List Char → Option (List Tok)
  | 0, _ => none
  | _ + 1, [] => some []
  | fuel + 1, c :: rest =>
      if isWS c then tokenize fuel rest
      else if c.isDigit || c == '.' then
        match lexNumber (c :: rest) with
        | none => none
        | some (q, r) => (tokenize fuel r).map (fun ts => Tok.num q :: ts)
      else if c.isAlpha || c == '_' || c == '$' then
        (tokenize fuel ((c :: rest).dropWhile isIdentChar)).map
          (fun ts => Tok.ident (String.mk ((c :: rest).takeWhile isIdentChar)) :: ts)
      else if c == '*' then
        match rest with
        | '*' :: r => (tokenize fuel r).map (fun ts => Tok.dstar :: ts)
        | _ => (tokenize fuel rest).map (fun ts => Tok.star :: ts)
      else if c == '+' then (tokenize fuel rest).map (fun ts => Tok.plus :: ts)
      else if c == '-' then (tokenize fuel rest).map (fun ts => Tok.minus :: ts)
      else if c == '/' then (tokenize fuel rest).map (fun ts => Tok.slash :: ts)
      else if c == '(' then (tokenize fuel rest).map (fun ts => Tok.lparen :: ts)
      else if c == ')' then (tokenize fuel rest).map (fun ts => Tok.rparen :: ts)
      else if c == ',' then (tokenize fuel rest).map (fun ts => Tok.comma :: ts)
      else none

def tokenizeTop (cs : List Char) : Option (List Tok) := tokenize (cs.length + 1) cs

inductive Expr where
  | lit (q : ℚ)
  | var (s : String)
  | call (f : String) (args : List Expr)
  | neg (e : Expr)
  | add (a b : Expr)
  | sub (a b : Expr)
  | mul (a b : Expr)
  | div (a b : Expr)
  | pow (a b : Expr)

/-- Parser state: which nonterminal is being parsed, with the left operand
accumulated so far for the left-associative loops. -/
inductive PMode where
  | pAdd
  | pAddLoop (acc : Expr)
  | pMul
  | pMulLoop (acc : Expr)
  | pUnary
  | pPow
  | pPrimary
  | pArgs (f : String) (acc : List Expr)

/-- Recursive-descent parser over the token list, fuel-indexed (a call chain
descends a bounded number of modes per consumed token, so the fuel supplied
by `parseExprToks` never runs out).  Precedences follow JavaScript:
`+ -` < `* /` < unary < `**` (right associative). -/
def parseStep : ℕ → PMode → List Tok → Option (Expr × List Tok)
  | 0, _, _ => none
  | fuel + 1, PMode.pAdd, ts =>
      match parseStep fuel PMode.pMul ts with
      | none => none
      | some (a, r) => parseStep fuel (PMode.pAddLoop a) r
  | fuel + 1, PMode.pAddLoop a, ts =>
      match ts with
      | Tok.plus :: r =>
          match parseStep fuel PMode.pMul r with
          | none => none
          | some (b, r2) => parseStep fuel (PMode.pAddLoop (Expr.add a b)) r2
      | Tok.minus :: r =>
          match parseStep fuel PMode.pMul r with
          | none => none
          | some (b, r2) => parseStep fuel (PMode.pAddLoop (Expr.sub a b)) r2
      | _ => some (a, ts)
  | fuel + 1, PMode.pMul, ts =>
      match parseStep fuel PMode.pUnary ts with
      | none => none
      | some (a, r) => parseStep fuel (PMode.pMulLoop a) r
  | fuel + 1, PMode.pMulLoop a, ts =>
      match ts with
      | Tok.star :: r =>
          match parseStep fuel PMode.pUnary r with
          | none => none
          | some (b, r2) => parseStep fuel (PMode.pMulLoop (Expr.mul a b)) r2
      | Tok.slash :: r =>
          match parseStep fuel PMode.pUnary r with
          | none => none
          | some (b, r2) => parseStep fuel (PMode.pMulLoop (Expr.div a b)) r2
      | _ => some (a, ts)
  | fuel + 1, PMode.pUnary, ts =>
      match ts with
      | Tok.minus :: r => (parseStep fuel PMode.pUnary r).map (fun p => (Expr.neg p.1, p.2))
      | Tok.plus :: r => parseStep fuel PMode.pUnary r
      | _ => parseStep fuel PMode.pPow ts
  | fuel + 1, PMode.pPow, ts =>
      match parseStep fuel PMode.pPrimary ts with
      | none => none
      | some (b, r) =>
          match r with
          | Tok.dstar :: r2 => (parseStep fuel PMode.pUnary r2).map (fun p => (Expr.pow b p.1, p.2))
          | _ => some (b, r)
  | fuel + 1, PMode.pPrimary, ts =>
      match ts with
      | Tok.num q :: r => some (Expr.lit q, r)
      | Tok.ident s :: Tok.lparen :: Tok.rparen :: r => some (Expr.call s [], r)
      | Tok.ident s :: Tok.lparen :: r => parseStep fuel (PMode.pArgs s []) r
      | Tok.ident s :: r => some (Expr.var s, r)
      | Tok.lparen :: r =>
          match parseStep fuel PMode.pAdd r with
          | none => none
          | some (e, r2) =>
              match r2 with
              | Tok.rparen :: r3 => some (e, r3)
              | _ => none
      | _ => none
  | fuel + 1, PMode.pArgs f acc, ts =>
      match parseStep fuel PMode.pAdd ts with
      | none => none
      | some (e, r) =>
          match r with
          | Tok.comma :: r2 => parseStep fuel (PMode.pArgs f (acc ++ [e])) r2
          | Tok.rparen :: r2 => some (Expr.call f (acc ++ [e]), r2)
          | _ => none

/-- Parse a complete expression; leftover tokens are a `SyntaxError`. -/
def parseExprToks (ts : List Tok) : Option Expr :=
  match parseStep (8 * ts.length + 8) PMode.pAdd ts with
  | some (e, []) => some e
  | _ => none

/-- Evaluate a parsed expression against a context.  `none` models a thrown
error (unbound name, calling a non-function); `NaN`/infinities are values.
A call with three or more arguments evaluates only the first two (the
`safeMath` table is used with at most two; no claim exercises more). -/
def evalE (ctx : String → Option CtxVal) : ℕ → Expr → Option JSVal
  | 0, _ => none
  | fuel + 1, e =>
      match e with
      | Expr.lit q => some (JSVal.num q)
      | Expr.var s =>
          match ctx s with
          | some (CtxVal.val v) => some v
          | _ => none
      | Expr.call f args =>
          match ctx f with
          | some (CtxVal.fn1 g) =>
              (match args with
               | [] => some (g JSVal.nan)
               | [a] => (evalE ctx fuel a).map g
               | a :: b :: _ =>
                   match evalE ctx fuel a, evalE ctx fuel b with
                   | some va, some _ => some (g va)
                   | _, _ => none)
          | some (CtxVal.fn2 g) =>
              (match args with
               | [] => some (g JSVal.nan JSVal.nan)
               | [a] => (evalE ctx fuel a).map (fun va => g va JSVal.nan)
               | a :: b :: _ =>
                   match evalE ctx fuel a, evalE ctx fuel b with
                   | some va, some vb => some (g va vb)
                   | _, _ => none)
          | _ => none
      | Expr.neg a => (evalE ctx fuel a).map JSVal.neg
      | Expr.add a b =>
          match evalE ctx fuel a, evalE ctx fuel b with
          | some va, some vb => some (va.add vb)
          | _, _ => none
      | Expr.sub a b =>
          match evalE ctx fuel a, evalE ctx fuel b with
          | some va, some vb => some (va.sub vb)
          | _, _ => none
      | Expr.mul a b =>
          match evalE ctx fuel a, evalE ctx fuel b with
          | some va, some vb => some (va.mul vb)
          | _, _ => none
      | Expr.div a b =>
          match evalE ctx fuel a, evalE ctx fuel b with
          | some va, some vb => some (va.div vb)
          | _, _ => none
      | Expr.pow a b =>
          match evalE ctx fuel a, evalE ctx fuel b with
          | some va, some vb => some (va.pow vb)
          | _, _ => none

/-- Tokenize, parse and evaluate already-normalized text against a context
(the body of `new Function(...)(...)`, lines 58–59 / 116–117). -/
def evalText (t : List Char) (ctx : String → Option CtxVal) : Option JSVal :=
  match tokenizeTop t with
  | none => none
  | some ts =>
      match parseExprToks ts with
      | none => none
      | some ast => evalE ctx (ts.length + 2) ast

/-- The `{independentVar = 'x', variables = []}` options object of
`evaluateExpressionSimple`. -/
structure SimpleCfg where
  independentVar : String := "x"
  vars : List VarEntry := []

/-- Normalize, build the context, evaluate, and filter for finiteness: the
whole `try` body of `evaluateExpressionSimple` (lines 55–60), shared
verbatim by the final stage of `evaluateExpression` (lines 113–118). -/
def runSimple (L : MathLib) (t : List Char) (x : JSVal) (iv : String)
    (vars : List VarEntry) : Option JSVal :=
  finiteFilter (evalText (preChain t) (mkContext L (buildVariableContext vars) iv x))

/-- Models `evaluateExpressionSimple` (source lines 46–64). -/
def evaluateExpressionSimple (L : MathLib) (expr : String) (x : JSVal)
    (cfg : SimpleCfg) : Option JSVal :=
  runSimple L expr.data x cfg.independentVar cfg.vars

/-! ## The composition resolver (`evaluateExpression`, source lines 66–122) -/

/-- A user-defined function as the UI supplies it (`id`, `expr`,
`derivative`, `independentVar`, `dependentVar`, `visible`). -/
structure FunctionDef where
  id : Nat
  expr : String
  derivative : Option String := none
  independentVar : String := "x"
  dependentVar : String := "f"
  visible : Option Bool := none

/-- Models line 84 (the dependent-variable name, defaulted when falsy). -/
def funcNameOf (f : FunctionDef) : String :=
  if f.dependentVar = "" then "f" else f.dependentVar

/-- Models line 85 (the independent-variable name, defaulted when falsy). -/
def funcIndepOf (f : FunctionDef) : String :=
  if f.independentVar = "" then "x" else f.independentVar

/-- The options object of `evaluateExpression`.  The `functions` array may
contain null entries (line 80 tests `!func`), hence `Option FunctionDef`. -/
structure FullCfg where
  independentVar : String := "x"
  currentFuncId : Option Nat := none
  functions : List (Option FunctionDef) := []
  vars : List VarEntry := []

/-- Does `pat` occur at the start of `t`? -/
def startsWithChars : List Char → List Char → Bool
  | [], _ => true
  | _ :: _, [] => false
  | p :: ps, c :: cs => p == c && startsWithChars ps cs

def notRParen (c : Char) : Bool := !(c == ')')

/-- One attempt of the regex `name\(([^)]+)\)` at the head of `t`: the
literal name, `(`, a nonempty run of characters without `)`, then `)`.
Returns (matched substring, captured inner text, rest of the text). -/
def tryMatch (name t : List Char) : Option (List Char × List Char × List Char) :=
  if startsWithChars name t then
    match t.drop name.length with
    | c0 :: r1 =>
        if c0 == '(' then
          match r1.dropWhile notRParen with
          | _ :: r2 =>
              if r1.takeWhile notRParen = [] then none
              else some (name ++ '(' :: (r1.takeWhile notRParen ++ [')']),
                         r1.takeWhile notRParen, r2)
          | [] => none
        else none
    | [] => none
  else none

/-- Models `String.replace(pattern, callback)` with a global regex: scan left to
right; at a match, emit `cb matched inner` and resume after the match; else
emit one character and advance.  Every step consumes at least one character,
so fuel `t.length` (as supplied by `replaceCalls`) never runs out. -/
def replaceCallsAux (name : List Char) (cb : List Char → List Char → List Char) :
    ℕ → List Char → List Char
  | 0, t => t
  | fuel + 1, t =>
      match t with
      | [] => []
      | c :: rest =>
          match tryMatch name (c :: rest) with
          | some (m, i, r2) => cb m i ++ replaceCallsAux name cb fuel r2
          | none => c :: replaceCallsAux name cb fuel rest

def replaceCalls (name : List Char) (cb : List Char → List Char → List Char)
    (t : List Char) : List Char :=
  replaceCallsAux name cb t.length t

/-- Writes a `Nat` in decimal, most significant digit first. -/
def natDigits (n : ℕ) : List Char := Nat.toDigits 10 n

/-- Up to `k` decimal digits of a fraction `0 ≤ f < 1`, stopping when the
remainder is zero. -/
def fracDigits : ℕ → ℚ → List Char
  | 0, _ => []
  | k + 1, f =>
      if f = 0 then []
      else
        Char.ofNat ('0'.toNat + (Int.floor (f * 10)).toNat) ::
          fracDigits k (f * 10 - Int.floor (f * 10))

/-- Decimal text of a nonnegative rational (fraction truncated at 30 digits;
exact whenever the decimal expansion terminates, as every IEEE double that
double that the JavaScript `String(number)` prints without an exponent does). -/
def ratToCharsNN (q : ℚ) : List Char :=
  if q - Int.floor q = 0 then natDigits (Int.floor q).toNat
  else natDigits (Int.floor q).toNat ++ '.' :: fracDigits 30 (q - Int.floor q)

/-- Decimal text of a rational. -/
def ratToChars (q : ℚ) : List Char :=
  if q < 0 then '-' :: ratToCharsNN (-q) else ratToCharsNN q

/-- Coercion, by JavaScript, of the substitution value to text (the value the callback
returns on line 106, coerced by `String.replace`). -/
def jsNumToString : JSVal → List Char
  | JSVal.num q => ratToChars q
  | JSVal.nan => "NaN".data
  | JSVal.inf => "Infinity".data
  | JSVal.ninf => "-Infinity".data

/-- The replacement callback (source lines 88–110): evaluate the captured
inner text with the recursive evaluator `E`; on success evaluate the
own expression of the function at that value with the plain evaluator; replace
the match by the decimal text of the result, keeping the original matched
substring if either step fails. -/
def compCallback (L : MathLib) (E : List Char → Option JSVal) (fexpr : String)
    (findep : String) (vars : List VarEntry) (matched inner : List Char) : List Char :=
  match E inner with
  | none => matched
  | some v =>
      match evaluateExpressionSimple L fexpr v ⟨findep, vars⟩ with
      | none => matched
      | some w => jsNumToString w

/-- One iteration of the `functions.forEach` loop (lines 79–111): skip null
entries, the current function, and functions with `visible === false`;
otherwise rewrite every `name(...)` occurrence. -/
def substStep (L : MathLib) (E : List Char → Option JSVal) (cid : Option Nat)
    (vars : List VarEntry) (cur : List Char) (of : Option FunctionDef) : List Char :=
  match of with
  | none => cur
  | some f =>
      if cid == some f.id || f.visible == some false then cur
      else replaceCalls (funcNameOf f).data (compCallback L E f.expr (funcIndepOf f) vars) cur

/-- The whole `forEach` loop over the progressively rewritten text. -/
def substPasses (L : MathLib) (E : List Char → Option JSVal) (cfg : FullCfg)
    (t : List Char) : List Char :=
  cfg.functions.foldl (substStep L E cfg.currentFuncId cfg.vars) t

/-- Fuel-indexed `evaluateExpression`.  The recursion of the source (line
90) is on the captured inner text, which contains no `)` and therefore can
contain no further `name(...)` match, so any fuel ≥ 2 computes the value the
unbounded JavaScript recursion computes (proved below). -/
def evalCore (L : MathLib) : ℕ → List Char → JSVal → FullCfg → Option JSVal
  | 0, _, _, _ => none
  | fuel + 1, expr, x, cfg =>
      runSimple L (substPasses L (fun inner => evalCore L fuel inner x cfg) cfg expr)
        x cfg.independentVar cfg.vars

/-- Models `evaluateExpression` (source lines 66–122). -/
def evaluateExpression (L : MathLib) (expr : String) (x : JSVal)
    (cfg : FullCfg) : Option JSVal :=
  evalCore L (expr.data.length + 2) expr.data x cfg

/-! ## The differentiator (`numericalDerivative`, source lines 124–153) -/

/-- The options object of `numericalDerivative` (default step `0.0001`). -/
structure DerivCfg where
  independentVar : String := "x"
  currentFuncId : Option Nat := none
  functions : List (Option FunctionDef) := []
  vars : List VarEntry := []
  h : JSVal := JSVal.num ((1 : ℚ) / 10000)

/-- The config forwarded to both `evaluateExpression` calls (lines 135–146). -/
def toFullCfg (c : DerivCfg) : FullCfg :=
  ⟨c.independentVar, c.currentFuncId, c.functions, c.vars⟩

/-- Models `numericalDerivative` (source lines 124–153): `(f1 - f2) / (2 * h)`,
`null` when either perturbed evaluation is `null` — and no finiteness check
of its own. -/
def numericalDerivative (L : MathLib) (expr : String) (x : JSVal)
    (cfg : DerivCfg) : Option JSVal :=
  match evaluateExpression L expr (x.add cfg.h) (toFullCfg cfg),
        evaluateExpression L expr (x.sub cfg.h) (toFullCfg cfg) with
  | some f1, some f2 => some ((f1.sub f2).div ((JSVal.num 2).mul cfg.h))
  | _, _ => none

/-! ## Specification-side definitions used to state the claims -/

/-- The binding a single `variables` entry contributes for a name `n`: some
value exactly when the name is the string `n` and the value is a number (of
any finiteness). -/
def entryBind (e : VarEntry) (n : String) : Option JSVal :=
  match e.name, e.value with
  | JSAny.str m, JSAny.num x => if n = m then some x else none
  | _, _ => none

/-- The mapping described by the (amended) context-builder specification:
entries whose name is not a string or whose value is not a number are
skipped, and among the rest the last entry bearing a given name wins. -/
def lastValid : List VarEntry → String → Option JSVal
  | [], _ => none
  | e :: t, n =>
      match lastValid t n with
      | some v => some v
      | none => entryBind e n

/-- Every adjacent pair of characters satisfies `R`. -/
def adjAll (R : Char → Char → Bool) : List Char → Bool
  | a :: b :: t => R a b && adjAll R (b :: t)
  | _ => true

/-- No adjacent pair matches the two-character rule guard `g`. -/
def noPairB (g : Char → Char → Bool) (l : List Char) : Bool :=
  adjAll (fun a b => !(g a b)) l

/-- No `^` anywhere: rule 1 cannot fire. -/
def noCaretB (l : List Char) : Bool := l.all (fun c => !(c == '^'))

/-- Every case-insensitive `pi` adjacency is already the capitals `PI`:
rule 6 rewrites the text to itself. -/
def piOK (a b : Char) : Bool := !(pish a && iish b) || (a == 'P' && b == 'I')

def piUpperB (l : List Char) : Bool := adjAll piOK l

/-- Every `e`/`E` whose lookahead allows rule 7 to fire is already `E`. -/
def eNormB : List Char → Bool
  | [] => true
  | a :: t => (!(eish a && eLookaheadOk t) || a == 'E') && eNormB t

/-- Characters agreeing on every class rules 1–5 inspect (digit, ASCII
letter, `)`, `(`, `^`). -/
def classEq6 (a b : Char) : Bool :=
  (isDigitC a == isDigitC b) && (isAlphaC a == isAlphaC b) &&
    ((a == ')') == (b == ')')) && ((a == '(') == (b == '(')) &&
    ((a == '^') == (b == '^'))

/-- Extends `classEq6` by the classes that the rule-6 invariant inspects. -/
def classEq7 (a b : Char) : Bool :=
  classEq6 a b && (pish a == pish b) && (iish a == iish b) &&
    ((a == 'P') == (b == 'P')) && ((a == 'I') == (b == 'I'))

/-- The text contains no `)` (as the captured inner text of a
`name\(([^)]+)\)` match never does). -/
def noRP (t : List Char) : Bool := t.all notRParen

/-! ## Concrete data for the test-point claims -/

/-- `f(x) = g(x)` — one half of the reference cycle of claim C3. -/
def fCyc : FunctionDef := ⟨1, "g(x)", none, "x", "f", none⟩

/-- `g(x) = f(x)` — the other half of the reference cycle. -/
def gCyc : FunctionDef := ⟨2, "f(x)", none, "x", "g", none⟩

/-- The variables `a = 2`, `b = 0.5`, `c = 1` of the composition test. -/
def abcVars : List VarEntry :=
  [⟨JSAny.str "a", JSAny.num (JSVal.num 2)⟩,
   ⟨JSAny.str "b", JSAny.num (JSVal.num ((1 : ℚ)/2))⟩,
   ⟨JSAny.str "c", JSAny.num (JSVal.num 1)⟩]

/-- The function definition `f(x) = a*sin(b*x) + c` of the composition
test. -/
def fDef : FunctionDef := ⟨1, "a*sin(b*x) + c", none, "x", "f", none⟩

/-- An interpretation whose `sin` is constantly `1/2`, giving the
composition test a substitution value (`2`) with a terminating decimal. -/
def libHalf : MathLib :=
  { mathLib0 with sin := fun _ => JSVal.num ((1 : ℚ)/2) }

/-- The `evaluateExpression` configuration of the composition test. -/
def cfgC9 : FullCfg := ⟨"x", none, [some fDef], abcVars⟩

/-! # Theorems -/

theorem finiteFilter_eq_some {r : Option JSVal} {v : JSVal}
    (h : finiteFilter r = some v) : v.isFinite = true := by
  cases r with
  | none => simp [finiteFilter] at h
  | some w =>
      by_cases hw : w.isFinite = true
      · simp only [finiteFilter, hw, if_true] at h
        cases h
        exact hw
      · simp only [finiteFilter, hw, if_false, Bool.not_eq_true] at h
        rw [if_neg] at h
        · cases h
        · simp [hw]

theorem evalCore_finite (L : MathLib) (fuel : ℕ) (t : List Char) (x : JSVal)
    (cfg : FullCfg) (v : JSVal) (h : evalCore L fuel t x cfg = some v) :
    v.isFinite = true := by
  cases fuel with
  | zero => simp [evalCore] at h
  | succ n => exact finiteFilter_eq_some h

/-- C1: for every expression string, evaluation point and configuration,
`evaluateExpressionSimple` and `evaluateExpression` are total functions into
`Option JSVal` (no exception escapes the embedding), and whenever they
return a value rather than the null sentinel that value is a finite number;
every failure (parse error, unbound name, non-finite result, thrown
evaluation error) is the single `none` sentinel. -/
theorem evaluators_no_escape_finite_or_null :
    ∀ (L : MathLib) (e : String) (x : JSVal) (cfg : SimpleCfg) (cfg2 : FullCfg)
      (v w : JSVal),
      (evaluateExpressionSimple L e x cfg = some v → v.isFinite = true) ∧
      (evaluateExpression L e x cfg2 = some w → w.isFinite = true) := by
  intro L e x cfg cfg2 v w
  constructor
  · intro h
    exact finiteFilter_eq_some h
  · intro h
    exact evalCore_finite L (e.data.length + 2) e.data x cfg2 w h

/-- Witness for C1 at the expression `"x"` and the point `2`/`5`. -/
theorem evaluators_no_escape_finite_or_null_witness :
    (JSVal.num 2).isFinite = true ∧ (JSVal.num 5).isFinite = true :=
  ⟨(evaluators_no_escape_finite_or_null mathLib0 "x" (JSVal.num 2) ⟨"x", []⟩
      ⟨"x", none, [], []⟩ (JSVal.num 2) (JSVal.num 5)).1 rfl,
   (evaluators_no_escape_finite_or_null mathLib0 "x" (JSVal.num 5) ⟨"x", []⟩
      ⟨"x", none, [], []⟩ (JSVal.num 2) (JSVal.num 5)).2 rfl⟩

/-- C2 counterexample: the entry `{name: "a", value: NaN}` has a value that
is **not** a finite number, yet `buildVariableContext` does not skip it (the
source only tests whether the value is typed as a number, which `NaN` passes): the
resulting mapping binds `"a"` to `NaN` instead of omitting it. -/
theorem buildVariableContext_keeps_nan :
    buildVariableContext [⟨JSAny.str "a", JSAny.num JSVal.nan⟩] "a"
        = some JSVal.nan
      ∧ JSVal.nan.isFinite = false :=
  ⟨rfl, rfl⟩

theorem bvc_foldl_eq (l : List VarEntry) :
    ∀ (ctx : String → Option JSVal) (n : String),
      List.foldl bvcStep ctx l n
        = match lastValid l n with
          | some v => some v
          | none => ctx n := by
  induction l with
  | nil => intro ctx n; rfl
  | cons e t ih =>
      intro ctx n
      rw [List.foldl_cons, ih (bvcStep ctx e) n]
      cases hlt : lastValid t n with
      | some v => simp [lastValid, hlt]
      | none =>
          simp only [lastValid, hlt]
          obtain ⟨en, ev⟩ := e
          cases en <;> cases ev <;> simp [bvcStep, entryBind]
          case str.num m xv =>
            by_cases hnm : n = m <;> simp [hnm]

/-- C2 (amended): `buildVariableContext` never errors and returns the
mapping that skips every entry whose name is not a string or whose value is
not a **number** (`typeof`-wise — non-finite numeric values such as `NaN`
and `±Infinity` are retained), with the last entry of a duplicated name
winning; this is exactly the `lastValid` mapping. -/
theorem buildVariableContext_last_write_wins :
    ∀ (l : List VarEntry) (n : String),
      buildVariableContext l n = lastValid l n := by
  intro l n
  show List.foldl bvcStep (fun _ => none) l n = _
  rw [bvc_foldl_eq l (fun _ => none) n]
  cases hlv : lastValid l n <;> simp [hlv]

/-- C4: `numericalDerivative` returns `null` when either perturbed
evaluation (through the composition-resolving evaluator) does, and
otherwise returns exactly `(f(point+h) − f(point−h)) / (2·h)` computed from
the two evaluation results. -/
theorem numericalDerivative_centered_difference :
    ∀ (L : MathLib) (e : String) (x : JSVal) (cfg : DerivCfg),
      ((evaluateExpression L e (x.add cfg.h) (toFullCfg cfg) = none ∨
        evaluateExpression L e (x.sub cfg.h) (toFullCfg cfg) = none) →
        numericalDerivative L e x cfg = none) ∧
      (∀ a b, evaluateExpression L e (x.add cfg.h) (toFullCfg cfg) = some a →
        evaluateExpression L e (x.sub cfg.h) (toFullCfg cfg) = some b →
        numericalDerivative L e x cfg
          = some ((a.sub b).div ((JSVal.num 2).mul cfg.h))) := by
  intro L e x cfg
  constructor
  · intro h
    cases hf1 : evaluateExpression L e (x.add cfg.h) (toFullCfg cfg) with
    | none => simp [numericalDerivative, hf1]
    | some a =>
        cases hf2 : evaluateExpression L e (x.sub cfg.h) (toFullCfg cfg) with
        | none => simp [numericalDerivative, hf1, hf2]
        | some b =>
            rcases h with h | h
            · rw [hf1] at h; cases h
            · rw [hf2] at h; cases h
  · intro a b h1 h2
    simp [numericalDerivative, h1, h2]

/-- Witness for C4 at `expr = "x"`, `point = 0`, `h = 1`. -/
theorem numericalDerivative_centered_difference_witness :
    numericalDerivative mathLib0 "x" (JSVal.num 0) ⟨"x", none, [], [], JSVal.num 1⟩
      = some ((((JSVal.num 0).add (JSVal.num 1)).sub
          ((JSVal.num 0).sub (JSVal.num 1))).div
            ((JSVal.num 2).mul (JSVal.num 1))) :=
  (numericalDerivative_centered_difference mathLib0 "x" (JSVal.num 0)
    ⟨"x", none, [], [], JSVal.num 1⟩).2
    ((JSVal.num 0).add (JSVal.num 1)) ((JSVal.num 0).sub (JSVal.num 1)) rfl rfl

/-- C6: in the merged context used by both evaluators, later sources shadow
earlier ones — the independent-variable binding beats a same-named variable
or library entry, a variable binding beats a same-named library entry, and
only unshadowed names fall through to the library; both evaluators build
their context through `mkContext` over `buildVariableContext`. -/
theorem context_merge_shadowing :
    ∀ (L : MathLib) (vc : String → Option JSVal) (iv : String) (x : JSVal)
      (n : String) (v : JSVal),
      (mkContext L vc iv x iv = some (CtxVal.val x)) ∧
      (n ≠ iv → vc n = some v → mkContext L vc iv x n = some (CtxVal.val v)) ∧
      (n ≠ iv → vc n = none → mkContext L vc iv x n = safeMathLookup L n) ∧
      (∀ (e : String) (cfg : SimpleCfg),
        evaluateExpressionSimple L e x cfg
          = finiteFilter (evalText (preChain e.data)
              (mkContext L (buildVariableContext cfg.vars) cfg.independentVar x))) ∧
      (∀ (e : List Char) (cfg : FullCfg) (fuel : ℕ),
        evalCore L (fuel + 1) e x cfg
          = finiteFilter (evalText
              (preChain (substPasses L (fun i => evalCore L fuel i x cfg) cfg e))
              (mkContext L (buildVariableContext cfg.vars) cfg.independentVar x))) := by
  intro L vc iv x n v
  refine ⟨by simp [mkContext], ?_, ?_, fun e cfg => rfl, fun e cfg fuel => rfl⟩
  · intro hne hvc
    simp [mkContext, hne, hvc]
  · intro hne hvc
    simp [mkContext, hne, hvc]

/-- Witness for C6: the variable binding `"a" ↦ 3` shadows the library and
is itself shadowed at the independent variable name. -/
theorem context_merge_shadowing_witness :
    mkContext mathLib0 (fun m => if m = "a" then some (JSVal.num 3) else none)
        "x" (JSVal.num 0) "a" = some (CtxVal.val (JSVal.num 3)) :=
  (context_merge_shadowing mathLib0
    (fun m => if m = "a" then some (JSVal.num 3) else none)
    "x" (JSVal.num 0) "a" (JSVal.num 3)).2.1 (by decide) rfl

/-- C7: implicit multiplication and constant canonicalization —
`evaluateExpressionSimple "2pi + 3x"` at `x = 4` (with a variable named
`pi`) yields exactly `2·PI + 12`, where `PI` is the library constant (the
normalizer rewrites `2pi` to `2*PI` and `3x` to `3*x`, so the lowercase
`pi` variable is never consulted). -/
theorem implicit_multiplication_pi_constant :
    evaluateExpressionSimple mathLib0 "2pi + 3x" (JSVal.num 4)
        ⟨"x", [⟨JSAny.str "pi", JSAny.num (JSVal.num piVal)⟩]⟩
      = some (JSVal.num (2 * piVal + 12)) := by
  with_unfolding_all rfl

theorem startsWith_append :
    ∀ (p t : List Char), startsWithChars p t = true → p ++ t.drop p.length = t
  | [], t, _ => by simp
  | a :: ps, [], h => by simp [startsWithChars] at h
  | a :: ps, c :: cs, h => by
      simp only [startsWithChars, Bool.and_eq_true, beq_iff_eq] at h
      obtain ⟨hac, hrest⟩ := h
      subst hac
      have ih := startsWith_append ps cs hrest
      simp only [List.length_cons, List.drop_succ_cons, List.cons_append]
      rw [ih]

theorem tryMatch_parts (name t m i r : List Char)
    (h : tryMatch name t = some (m, i, r)) :
    m ++ r = t ∧ i.all notRParen = true := by
  by_cases hsw : startsWithChars name t = true
  case neg =>
    unfold tryMatch at h
    rw [if_neg hsw] at h
    cases h
  unfold tryMatch at h
  rw [if_pos hsw] at h
  cases hdrop : t.drop name.length with
  | nil => rw [hdrop] at h; cases h
  | cons c0 r1 =>
      rw [hdrop] at h
      simp only [] at h
      by_cases hc0 : (c0 == '(') = true
      case neg =>
        rw [if_neg hc0] at h
        cases h
      rw [if_pos hc0] at h
      have hc0' : c0 = '(' := by simpa using hc0
      subst hc0'
      cases hdw : r1.dropWhile notRParen with
      | nil => rw [hdw] at h; cases h
      | cons d r2 =>
          have hd : d = ')' := by
            have hh := List.head?_dropWhile_not notRParen r1
            rw [hdw] at hh
            simp only [List.head?_cons] at hh
            simpa [notRParen] using hh
          subst hd
          rw [hdw] at h
          simp only [] at h
          by_cases hemp : r1.takeWhile notRParen = []
          · rw [if_pos hemp] at h
            cases h
          · rw [if_neg hemp] at h
            simp only [Option.some.injEq, Prod.mk.injEq] at h
            obtain ⟨hm, hi, hr⟩ := h
            subst hm; subst hi; subst hr
            refine ⟨?_, List.all_takeWhile⟩
            have h0 : name ++ t.drop name.length = t := startsWith_append name t hsw
            have h1 : List.takeWhile notRParen r1 ++ List.dropWhile notRParen r1 = r1 :=
              List.takeWhile_append_dropWhile notRParen r1
            rw [hdw] at h1
            calc (name ++ '(' :: (List.takeWhile notRParen r1 ++ [')'])) ++ r2
                = name ++ '(' :: (List.takeWhile notRParen r1 ++ (')' :: r2)) := by
                  simp [List.append_assoc]
              _ = name ++ '(' :: r1 := by rw [h1]
              _ = name ++ t.drop name.length := by rw [hdrop]
              _ = t := h0

theorem replaceCallsAux_keep (name : List Char) :
    ∀ (fuel : ℕ) (t : List Char), replaceCallsAux name (fun m _ => m) fuel t = t := by
  intro fuel
  induction fuel with
  | zero => intro t; rfl
  | succ n ih =>
      intro t
      cases t with
      | nil => rfl
      | cons c rest =>
          cases htm : tryMatch name (c :: rest) with
          | none =>
              simp only [replaceCallsAux, htm]
              rw [ih rest]
          | some trip =>
              obtain ⟨m, i, r⟩ := trip
              simp only [replaceCallsAux, htm]
              rw [ih r]
              exact (tryMatch_parts name (c :: rest) m i r htm).1

/-- C8: during composition resolution, the replacement for a matched
function-call substring is the original matched substring whenever the inner
argument evaluation fails or the own expression of the function fails at the
inner value, and is the decimal textual form of the substitution value
exactly when both steps succeed; moreover a pass in which every callback
keeps its match leaves the text untouched. -/
theorem composition_failure_leaves_match :
    ∀ (L : MathLib) (E : List Char → Option JSVal) (fexpr findep : String)
      (vars : List VarEntry) (matched inner : List Char),
      (E inner = none → compCallback L E fexpr findep vars matched inner = matched) ∧
      (∀ v, E inner = some v →
        evaluateExpressionSimple L fexpr v ⟨findep, vars⟩ = none →
        compCallback L E fexpr findep vars matched inner = matched) ∧
      (∀ v w, E inner = some v →
        evaluateExpressionSimple L fexpr v ⟨findep, vars⟩ = some w →
        compCallback L E fexpr findep vars matched inner = jsNumToString w) ∧
      (∀ (name t : List Char), replaceCalls name (fun m _ => m) t = t) := by
  intro L E fexpr findep vars matched inner
  refine ⟨?_, ?_, ?_, ?_⟩
  · intro h
    simp [compCallback, h]
  · intro v h1 h2
    simp [compCallback, h1, h2]
  · intro v w h1 h2
    simp [compCallback, h1, h2]
  · intro name t
    exact replaceCallsAux_keep name t.length t

/-- Witness for C8: an inner evaluation that fails leaves the matched text
`"f(x)"` unchanged. -/
theorem composition_failure_leaves_match_witness :
    compCallback mathLib0 (fun _ => none) "y" "x" [] "f(x)".data "x".data
      = "f(x)".data :=
  (composition_failure_leaves_match mathLib0 (fun _ => none) "y" "x" []
    "f(x)".data "x".data).1 rfl

/-- C10: `numericalDerivative` performs no finiteness check of its own: with
step size `h = 0` both perturbed evaluations of `"x"` at the point `1`
succeed with finite values, and the division by `2·h = 0` returns the
number `NaN` — not the null sentinel. -/
theorem numericalDerivative_no_finiteness_check :
    numericalDerivative mathLib0 "x" (JSVal.num 1) ⟨"x", none, [], [], JSVal.num 0⟩
        = some JSVal.nan
      ∧ JSVal.nan.isFinite = false := by
  constructor
  · with_unfolding_all rfl
  · rfl

theorem all_drop {p : Char → Bool} {l : List Char} (n : ℕ)
    (h : l.all p = true) : (l.drop n).all p = true := by
  rw [List.all_eq_true] at h ⊢
  exact fun x hx => h x (List.drop_subset n l hx)

theorem tryMatch_none_norp (name t : List Char)
    (hall : t.all notRParen = true) : tryMatch name t = none := by
  unfold tryMatch
  by_cases hsw : startsWithChars name t = true
  case neg => rw [if_neg hsw]
  rw [if_pos hsw]
  cases hdrop : t.drop name.length with
  | nil => rfl
  | cons c0 r1 =>
      have hr1 : r1.all notRParen = true := by
        have h2 : (t.drop name.length).all notRParen = true := all_drop name.length hall
        rw [hdrop, List.all_cons, Bool.and_eq_true] at h2
        exact h2.2
      have hdw : r1.dropWhile notRParen = [] := by
        rw [List.dropWhile_eq_nil_iff]
        rw [List.all_eq_true] at hr1
        exact hr1
      simp only []
      by_cases hc0 : (c0 == '(') = true
      · rw [if_pos hc0, hdw]
      · rw [if_neg hc0]

theorem replaceCallsAux_norp_id (name : List Char)
    (cb : List Char → List Char → List Char) :
    ∀ (fuel : ℕ) (t : List Char), t.all notRParen = true →
      replaceCallsAux name cb fuel t = t := by
  intro fuel
  induction fuel with
  | zero => intro t _; rfl
  | succ n ih =>
      intro t ht
      cases t with
      | nil => rfl
      | cons c rest =>
          simp only [replaceCallsAux, tryMatch_none_norp name (c :: rest) ht]
          rw [ih rest]
          rw [List.all_cons, Bool.and_eq_true] at ht
          exact ht.2

theorem substStep_norp_id (L : MathLib) (E : List Char → Option JSVal)
    (cid : Option Nat) (vars : List VarEntry) (cur : List Char)
    (of : Option FunctionDef) (h : cur.all notRParen = true) :
    substStep L E cid vars cur of = cur := by
  cases of with
  | none => rfl
  | some f =>
      simp only [substStep]
      by_cases hskip : (cid == some f.id || f.visible == some false) = true
      · rw [if_pos hskip]
      · rw [if_neg hskip]
        exact replaceCallsAux_norp_id _ _ _ cur h

theorem substPasses_foldl_norp_id (L : MathLib) (E : List Char → Option JSVal)
    (cid : Option Nat) (vars : List VarEntry) :
    ∀ (fs : List (Option FunctionDef)) (t : List Char), t.all notRParen = true →
      List.foldl (substStep L E cid vars) t fs = t := by
  intro fs
  induction fs with
  | nil => intro t _; rfl
  | cons f fs ih =>
      intro t ht
      rw [List.foldl_cons, substStep_norp_id L E cid vars t f ht, ih t ht]

theorem substPasses_norp_id (L : MathLib) (E : List Char → Option JSVal)
    (cfg : FullCfg) (t : List Char) (h : t.all notRParen = true) :
    substPasses L E cfg t = t :=
  substPasses_foldl_norp_id L E cfg.currentFuncId cfg.vars cfg.functions t h

theorem evalCore_succ_norp (L : MathLib) (a b : ℕ) (t : List Char) (x : JSVal)
    (cfg : FullCfg) (h : t.all notRParen = true) :
    evalCore L (a + 1) t x cfg = evalCore L (b + 1) t x cfg := by
  simp only [evalCore]
  rw [substPasses_norp_id L _ cfg t h, substPasses_norp_id L _ cfg t h]

theorem replaceCallsAux_congr (name : List Char)
    {cb1 cb2 : List Char → List Char → List Char}
    (hcb : ∀ m i, i.all notRParen = true → cb1 m i = cb2 m i) :
    ∀ (fuel : ℕ) (t : List Char),
      replaceCallsAux name cb1 fuel t = replaceCallsAux name cb2 fuel t := by
  intro fuel
  induction fuel with
  | zero => intro t; rfl
  | succ n ih =>
      intro t
      cases t with
      | nil => rfl
      | cons c rest =>
          cases htm : tryMatch name (c :: rest) with
          | none => simp only [replaceCallsAux, htm]; rw [ih rest]
          | some trip =>
              obtain ⟨m, i, r⟩ := trip
              simp only [replaceCallsAux, htm]
              rw [ih r, hcb m i (tryMatch_parts name (c :: rest) m i r htm).2]

theorem substStep_congr (L : MathLib) {E1 E2 : List Char → Option JSVal}
    (cid : Option Nat) (vars : List VarEntry)
    (hE : ∀ i, i.all notRParen = true → E1 i = E2 i) :
    ∀ (cur : List Char) (of : Option FunctionDef),
      substStep L E1 cid vars cur of = substStep L E2 cid vars cur of := by
  intro cur of
  cases of with
  | none => rfl
  | some f =>
      simp only [substStep]
      by_cases hskip : (cid == some f.id || f.visible == some false) = true
      · rw [if_pos hskip, if_pos hskip]
      · rw [if_neg hskip, if_neg hskip]
        exact replaceCallsAux_congr _
          (fun m i hi => by simp only [compCallback, hE i hi]) _ cur

theorem substPasses_congr (L : MathLib) {E1 E2 : List Char → Option JSVal}
    (cfg : FullCfg) (hE : ∀ i, i.all notRParen = true → E1 i = E2 i) :
    ∀ (t : List Char), substPasses L E1 cfg t = substPasses L E2 cfg t := by
  show ∀ t, List.foldl (substStep L E1 cfg.currentFuncId cfg.vars) t cfg.functions
    = List.foldl (substStep L E2 cfg.currentFuncId cfg.vars) t cfg.functions
  induction cfg.functions with
  | nil => intro t; rfl
  | cons f fs ih =>
      intro t
      rw [List.foldl_cons, List.foldl_cons,
        substStep_congr L cfg.currentFuncId cfg.vars hE t f, ih]

theorem evalCore_stable (L : MathLib) (fuel : ℕ) (hf : 2 ≤ fuel) :
    ∀ (t : List Char) (x : JSVal) (cfg : FullCfg),
      evalCore L fuel t x cfg = evalCore L 2 t x cfg := by
  obtain ⟨k, rfl⟩ : ∃ k, fuel = k + 2 := ⟨fuel - 2, by omega⟩
  intro t x cfg
  have h1 : evalCore L (k + 2) t x cfg
      = runSimple L (substPasses L (fun i => evalCore L (k + 1) i x cfg) cfg t)
          x cfg.independentVar cfg.vars := rfl
  have h2 : evalCore L 2 t x cfg
      = runSimple L (substPasses L (fun i => evalCore L 1 i x cfg) cfg t)
          x cfg.independentVar cfg.vars := rfl
  rw [h1, h2, substPasses_congr L cfg
    (fun i hi => evalCore_succ_norp L k 0 i x cfg hi) t]

/-- C3: the composition resolver terminates for every expression and every
function list within a bounded number of recursive steps — the captured
inner text of a match contains no `)`, so the recursion reaches a fixed
point at depth 2 and every fuel ≥ 2 computes the same result as
`evaluateExpression` — and evaluating a call into the two-function reference
cycle `f(x)=g(x)`, `g(x)=f(x)` returns the null sentinel (the substitution
step evaluates the body of `f` with the plain evaluator, where `g` is unbound,
keeps the match, and the final evaluation of `f(x)` finds `f` unbound). -/
theorem evaluateExpression_bounded_and_cycle_null :
    (∀ (L : MathLib) (fuel : ℕ) (e : String) (x : JSVal) (cfg : FullCfg),
      2 ≤ fuel → evalCore L fuel e.data x cfg = evaluateExpression L e x cfg) ∧
    evaluateExpression mathLib0 "f(x)" (JSVal.num 2)
        ⟨"x", none, [some fCyc, some gCyc], []⟩ = none := by
  constructor
  · intro L fuel e x cfg hf
    rw [evalCore_stable L fuel hf]
    show _ = evalCore L (e.data.length + 2) e.data x cfg
    rw [evalCore_stable L (e.data.length + 2) (by omega)]
  · with_unfolding_all rfl

/-- Witness for C3 at fuel 5 and the expression `"x"`. -/
theorem evaluateExpression_bounded_and_cycle_null_witness :
    evalCore mathLib0 5 "x".data (JSVal.num 0) ⟨"x", none, [], []⟩
      = evaluateExpression mathLib0 "x" (JSVal.num 0) ⟨"x", none, [], []⟩ :=
  evaluateExpression_bounded_and_cycle_null.1 mathLib0 5 "x" (JSVal.num 0)
    ⟨"x", none, [], []⟩ (by decide)

/-- C9: composition agrees with direct evaluation.  For the function
`f(x) = a*sin(b*x) + c` with `a = 2`, `b = 0.5`, `c = 1`, evaluating
`"f(x)"` through the composition resolver at `2` equals the plain
evaluation of `"a*sin(b*x)+c"` at `2`, for any interpretation of the
transcendental library whose substitution value round-trips through its
decimal textual form (the hypothesis; the JavaScript `String(number)` /
number-literal parsing round-trips every finite double exactly, and the
rational model round-trips every value whose decimal expansion
terminates). -/
theorem composition_agrees_with_direct :
    ∀ (L : MathLib),
      (∀ w, evaluateExpressionSimple L "a*sin(b*x) + c" (JSVal.num 2)
          ⟨"x", abcVars⟩ = some w →
        evaluateExpressionSimple L (String.mk (jsNumToString w)) (JSVal.num 2)
          ⟨"x", abcVars⟩ = some w) →
      evaluateExpression L "f(x)" (JSVal.num 2) cfgC9
        = evaluateExpressionSimple L "a*sin(b*x)+c" (JSVal.num 2) ⟨"x", abcVars⟩ := by
  intro L hrt
  have h1 : evaluateExpression L "f(x)" (JSVal.num 2) cfgC9
      = runSimple L
          (compCallback L (fun inner => evalCore L 5 inner (JSVal.num 2) cfgC9)
            "a*sin(b*x) + c" "x" abcVars "f(x)".data "x".data ++ [])
          (JSVal.num 2) "x" abcVars := rfl
  rw [List.append_nil] at h1
  have hFsp : evaluateExpressionSimple L "a*sin(b*x)+c" (JSVal.num 2) ⟨"x", abcVars⟩
      = evaluateExpressionSimple L "a*sin(b*x) + c" (JSVal.num 2) ⟨"x", abcVars⟩ := rfl
  rw [hFsp]
  cases hF : evaluateExpressionSimple L "a*sin(b*x) + c" (JSVal.num 2)
      (⟨"x", abcVars⟩ : SimpleCfg) with
  | none =>
      have hcb : compCallback L (fun inner => evalCore L 5 inner (JSVal.num 2) cfgC9)
          "a*sin(b*x) + c" "x" abcVars "f(x)".data "x".data = "f(x)".data := by
        show (match (some (JSVal.num 2) : Option JSVal) with
              | none => "f(x)".data
              | some v =>
                  match evaluateExpressionSimple L "a*sin(b*x) + c" v
                      (⟨"x", abcVars⟩ : SimpleCfg) with
                  | none => "f(x)".data
                  | some w => jsNumToString w) = "f(x)".data
        simp only [hF]
      rw [hcb] at h1
      rw [h1]
      rfl
  | some w =>
      have hcb : compCallback L (fun inner => evalCore L 5 inner (JSVal.num 2) cfgC9)
          "a*sin(b*x) + c" "x" abcVars "f(x)".data "x".data = jsNumToString w := by
        show (match (some (JSVal.num 2) : Option JSVal) with
              | none => "f(x)".data
              | some v =>
                  match evaluateExpressionSimple L "a*sin(b*x) + c" v
                      (⟨"x", abcVars⟩ : SimpleCfg) with
                  | none => "f(x)".data
                  | some w => jsNumToString w) = jsNumToString w
        simp only [hF]
      rw [hcb] at h1
      rw [h1]
      exact hrt w hF

/-- Witness for C9 with the interpretation whose `sin` is constantly `1/2`:
the substitution value is `2`, whose decimal text `"2"` round-trips. -/
theorem composition_agrees_with_direct_witness :
    evaluateExpression libHalf "f(x)" (JSVal.num 2) cfgC9
      = evaluateExpressionSimple libHalf "a*sin(b*x)+c" (JSVal.num 2) ⟨"x", abcVars⟩ :=
  composition_agrees_with_direct libHalf (fun w hw => by
    have hv : evaluateExpressionSimple libHalf "a*sin(b*x) + c" (JSVal.num 2)
        (⟨"x", abcVars⟩ : SimpleCfg) = some (JSVal.num 2) := by
      with_unfolding_all rfl
    rw [hv] at hw
    injection hw with hw2
    subst hw2
    with_unfolding_all rfl)

theorem adjAll_tail {R : Char → Char → Bool} {b : Char} {t : List Char}
    (h : adjAll R (b :: t) = true) : adjAll R t = true := by
  cases t with
  | nil => rfl
  | cons c t2 =>
      simp only [adjAll, Bool.and_eq_true] at h
      exact h.2

theorem adjAll_cons_iff (R : Char → Char → Bool) (a : Char) (l : List Char) :
    adjAll R (a :: l) = true
      ↔ (Option.all (R a) l.head? = true ∧ adjAll R l = true) := by
  cases l with
  | nil => simp [adjAll, Option.all]
  | cons b t => simp [adjAll, Option.all, Bool.and_eq_true]

theorem alphaC_not_digitC {c : Char} (h : isAlphaC c = true) : isDigitC c = false := by
  cases hdig : isDigitC c with
  | false => rfl
  | true =>
      exfalso
      simp only [isAlphaC, Bool.or_eq_true, Bool.and_eq_true, decide_eq_true_eq] at h
      simp only [isDigitC, Bool.and_eq_true, decide_eq_true_eq] at hdig
      rcases h with ⟨h1, _⟩ | ⟨h1, _⟩
      · exact absurd (le_trans h1 hdig.2) (by decide)
      · exact absurd (le_trans h1 hdig.2) (by decide)

theorem digitC_ne_rparen {c : Char} (h : isDigitC c = true) : (c == ')') = false := by
  cases hc : (c == ')') with
  | false => rfl
  | true =>
      exfalso
      have hcc : c = ')' := by simpa using hc
      subst hcc
      exact absurd h (by decide)

theorem caretRule_nocaret : ∀ l, noCaretB (caretRule l) = true
  | [] => rfl
  | c :: t => by
      simp only [caretRule]
      by_cases hc : (c == '^') = true
      · rw [if_pos hc]
        simp only [noCaretB, List.all_cons, Bool.and_eq_true]
        exact ⟨rfl, rfl, caretRule_nocaret t⟩
      · rw [if_neg hc]
        simp only [noCaretB, List.all_cons, Bool.and_eq_true]
        refine ⟨?_, caretRule_nocaret t⟩
        simp only [Bool.not_eq_true'] at hc ⊢
        simpa using hc

theorem caretRule_id : ∀ l, noCaretB l = true → caretRule l = l
  | [], _ => rfl
  | c :: t, h => by
      obtain ⟨h1, h2⟩ :
          (!(c == '^')) = true ∧ List.all t (fun c => !(c == '^')) = true := by
        simpa [noCaretB, List.all_cons, Bool.and_eq_true] using h
      have hc : (c == '^') = false := by simpa using h1
      simp only [caretRule]
      rw [if_neg (by simp [hc])]
      rw [caretRule_id t h2]

theorem star2_headq (g : Char → Char → Bool) : ∀ l, (star2 g l).head? = l.head?
  | [] => rfl
  | [_] => rfl
  | a :: b :: t => by
      simp only [star2]
      by_cases hg : (g a b) = true
      · rw [if_pos hg]; rfl
      · rw [if_neg hg]; rfl

theorem star2_id (g : Char → Char → Bool) :
    ∀ l, noPairB g l = true → star2 g l = l
  | [], _ => rfl
  | [_], _ => rfl
  | a :: b :: t, h => by
      obtain ⟨h1, h2⟩ :
          (!(g a b)) = true ∧ adjAll (fun a b => !(g a b)) (b :: t) = true := by
        simpa [noPairB, adjAll, Bool.and_eq_true] using h
      have hg : (g a b) = false := by simpa using h1
      simp only [star2]
      rw [if_neg (by simp [hg])]
      rw [star2_id g (b :: t) h2]

theorem star2_est (g : Char → Char → Bool)
    (hga : ∀ b, g '*' b = false) (hgb : ∀ a, g a '*' = false)
    (hgc : ∀ a b c, g a b = true → g b c = false) :
    ∀ l, noPairB g (star2 g l) = true
  | [] => rfl
  | [_] => rfl
  | a :: b :: t => by
      simp only [star2]
      by_cases hg : (g a b) = true
      · rw [if_pos hg]
        simp only [noPairB, adjAll, Bool.and_eq_true]
        refine ⟨by simp [hgb a], by simp [hga b], ?_⟩
        have htail : adjAll (fun x y => !(g x y)) (star2 g t) = true := star2_est g hga hgb hgc t
        rw [show adjAll (fun x y => !(g x y)) (b :: star2 g t)
            = adjAll (fun x y => !(g x y)) (b :: star2 g t) from rfl]
        rw [adjAll_cons_iff]
        refine ⟨?_, htail⟩
        rw [star2_headq g t]
        cases ht : t.head? with
        | none => rfl
        | some c => simp [Option.all, hgc a b c hg]
      · rw [if_neg hg]
        simp only [noPairB] at *
        rw [adjAll_cons_iff]
        refine ⟨?_, star2_est g hga hgb hgc (b :: t)⟩
        rw [star2_headq g (b :: t)]
        have hgf : (g a b) = false := by
          cases hq : (g a b) with
          | false => rfl
          | true => exact absurd hq hg
        simp [Option.all, hgf]

theorem star2_pres (g : Char → Char → Bool) (R : Char → Char → Bool)
    (h1 : ∀ a, R a '*' = true) (h2 : ∀ b, R '*' b = true) :
    ∀ l, adjAll R l = true → adjAll R (star2 g l) = true
  | [], _ => rfl
  | [_], _ => rfl
  | a :: b :: t, h => by
      obtain ⟨hab, htail⟩ : R a b = true ∧ adjAll R (b :: t) = true := by
        simpa [adjAll, Bool.and_eq_true] using h
      simp only [star2]
      by_cases hg : (g a b) = true
      · rw [if_pos hg]
        simp only [adjAll, Bool.and_eq_true]
        refine ⟨h1 a, h2 b, ?_⟩
        rw [adjAll_cons_iff]
        refine ⟨?_, star2_pres g R h1 h2 t (adjAll_tail htail)⟩
        rw [star2_headq g t]
        cases ht : t.head? with
        | none => rfl
        | some c =>
            have := (adjAll_cons_iff R b t).mp htail
            rw [ht] at this
            simpa [Option.all] using this.1
      · rw [if_neg hg]
        rw [adjAll_cons_iff]
        refine ⟨?_, star2_pres g R h1 h2 (b :: t) htail⟩
        rw [star2_headq g (b :: t)]
        simp [Option.all, hab]

theorem star2_all (g : Char → Char → Bool) (p : Char → Bool) (hp : p '*' = true) :
    ∀ l, l.all p = true → (star2 g l).all p = true
  | [], h => h
  | [_], h => h
  | a :: b :: t, h => by
      simp only [List.all_cons, Bool.and_eq_true] at h
      obtain ⟨ha, hb, ht⟩ := h
      simp only [star2]
      by_cases hg : (g a b) = true
      · rw [if_pos hg]
        simp only [List.all_cons, Bool.and_eq_true]
        exact ⟨ha, hp, hb, star2_all g p hp t ht⟩
      · rw [if_neg hg]
        simp only [List.all_cons, Bool.and_eq_true]
        refine ⟨ha, ?_⟩
        have := star2_all g p hp (b :: t) (by simp [List.all_cons, hb, ht])
        exact this

theorem classEq6_parts {a b : Char} (h : classEq6 a b = true) :
    isDigitC a = isDigitC b ∧ isAlphaC a = isAlphaC b ∧ (a == ')') = (b == ')')
      ∧ (a == '(') = (b == '(') ∧ (a == '^') = (b == '^') := by
  simp only [classEq6, Bool.and_eq_true, beq_iff_eq] at h
  obtain ⟨⟨⟨⟨h1, h2⟩, h3⟩, h4⟩, h5⟩ := h
  exact ⟨h1, h2, h3, h4, h5⟩

theorem classEq7_parts {a b : Char} (h : classEq7 a b = true) :
    classEq6 a b = true ∧ pish a = pish b ∧ iish a = iish b
      ∧ (a == 'P') = (b == 'P') ∧ (a == 'I') = (b == 'I') := by
  simp only [classEq7, Bool.and_eq_true, beq_iff_eq] at h
  obtain ⟨⟨⟨⟨h1, h2⟩, h3⟩, h4⟩, h5⟩ := h
  exact ⟨h1, h2, h3, h4, h5⟩

theorem classEq6_refl (a : Char) : classEq6 a a = true := by simp [classEq6]

theorem classEq7_refl (a : Char) : classEq7 a a = true := by simp [classEq7, classEq6]

theorem forall2_adjAll {C : Char → Char → Bool} (R : Char → Char → Bool)
    (hR : ∀ a a2 b b2, C a a2 = true → C b b2 = true → R a b = R a2 b2) :
    ∀ {l l2 : List Char}, List.Forall₂ (fun x y => C x y = true) l l2 →
      adjAll R l = adjAll R l2 := by
  intro l l2 h
  induction h with
  | nil => rfl
  | cons h1 htl ih =>
      rename_i a a2 l1 l12
      cases htl with
      | nil => rfl
      | cons h3 h4 =>
          rename_i b b2 t t2
          simp only [adjAll]
          rw [hR a a2 b b2 h1 h3, ih]

theorem forall2_all {C : Char → Char → Bool} (p : Char → Bool)
    (hp : ∀ a b, C a b = true → p a = p b) :
    ∀ {l l2 : List Char}, List.Forall₂ (fun x y => C x y = true) l l2 →
      l.all p = l2.all p := by
  intro l l2 h
  induction h with
  | nil => rfl
  | cons h1 _ ih =>
      simp only [List.all_cons]
      rw [hp _ _ h1, ih]

theorem pish_eq {a : Char} (h : pish a = true) : a = 'p' ∨ a = 'P' := by
  simpa [pish, Bool.or_eq_true, beq_iff_eq] using h

theorem iish_eq {a : Char} (h : iish a = true) : a = 'i' ∨ a = 'I' := by
  simpa [iish, Bool.or_eq_true, beq_iff_eq] using h

theorem eish_eq {a : Char} (h : eish a = true) : a = 'e' ∨ a = 'E' := by
  simpa [eish, Bool.or_eq_true, beq_iff_eq] using h

theorem piRule_f2 : ∀ l, List.Forall₂ (fun x y => classEq6 x y = true) (piRule l) l
  | [] => List.Forall₂.nil
  | [a] => List.Forall₂.cons (classEq6_refl a) List.Forall₂.nil
  | a :: b :: t => by
      simp only [piRule]
      by_cases hg : (pish a && iish b) = true
      · rw [if_pos hg]
        rw [Bool.and_eq_true] at hg
        refine List.Forall₂.cons ?_ (List.Forall₂.cons ?_ (piRule_f2 t))
        · rcases pish_eq hg.1 with rfl | rfl <;> rfl
        · rcases iish_eq hg.2 with rfl | rfl <;> rfl
      · rw [if_neg hg]
        exact List.Forall₂.cons (classEq6_refl a) (piRule_f2 (b :: t))

theorem piRule_head (b : Char) (t : List Char) :
    (piRule (b :: t)).head? = some b ∨ (piRule (b :: t)).head? = some 'P' := by
  cases t with
  | nil => exact Or.inl rfl
  | cons c t2 =>
      simp only [piRule]
      by_cases hg : (pish b && iish c) = true
      · rw [if_pos hg]; exact Or.inr rfl
      · rw [if_neg hg]; exact Or.inl rfl

theorem piOK_I (x : Char) : piOK 'I' x = true := rfl

theorem piOK_guard_false {a b : Char} (hg : (pish a && iish b) = false) :
    piOK a b = true := by
  simp [piOK, hg]

theorem piOK_P (a : Char) : piOK a 'P' = true := by
  simp [piOK, show iish 'P' = false from rfl, show ('P' == 'I') = false from rfl]

theorem piRule_est : ∀ l, piUpperB (piRule l) = true
  | [] => rfl
  | [_] => rfl
  | a :: b :: t => by
      simp only [piUpperB, piRule]
      by_cases hg : (pish a && iish b) = true
      · rw [if_pos hg]
        simp only [adjAll, Bool.and_eq_true]
        refine ⟨rfl, ?_⟩
        rw [adjAll_cons_iff]
        refine ⟨?_, piRule_est t⟩
        cases hh : (piRule t).head? with
        | none => rfl
        | some c => simp [Option.all, piOK_I]
      · rw [if_neg hg]
        rw [adjAll_cons_iff]
        have hgf : (pish a && iish b) = false := by
          cases hq : (pish a && iish b) with
          | false => rfl
          | true => exact absurd hq hg
        refine ⟨?_, piRule_est (b :: t)⟩
        rcases piRule_head b t with hh | hh
        · rw [hh]; simpa [Option.all] using piOK_guard_false hgf
        · rw [hh]; simpa [Option.all] using piOK_P a

theorem piRule_id : ∀ l, piUpperB l = true → piRule l = l
  | [], _ => rfl
  | [_], _ => rfl
  | a :: b :: t, h => by
      obtain ⟨h1, h2⟩ : piOK a b = true ∧ adjAll piOK (b :: t) = true := by
        simpa [piUpperB, adjAll, Bool.and_eq_true] using h
      simp only [piRule]
      by_cases hg : (pish a && iish b) = true
      · have hPI : a = 'P' ∧ b = 'I' := by
          simp only [piOK, hg, Bool.not_true, Bool.false_or, Bool.and_eq_true,
            beq_iff_eq] at h1
          exact h1
        obtain ⟨rfl, rfl⟩ := hPI
        rw [if_pos hg]
        rw [piRule_id t (adjAll_tail h2)]
      · rw [if_neg hg]
        rw [piRule_id (b :: t) h2]

theorem eRule_lookahead : ∀ t, eLookaheadOk (eRule t) = eLookaheadOk t := by
  intro t
  cases t with
  | nil => rfl
  | cons b t2 =>
      simp only [eRule]
      by_cases hg : (eish b && eLookaheadOk t2) = true
      · rw [if_pos hg]
        rw [Bool.and_eq_true] at hg
        rcases eish_eq hg.1 with rfl | rfl <;> rfl
      · rw [if_neg hg]; rfl

theorem eRule_f2 : ∀ l, List.Forall₂ (fun x y => classEq7 x y = true) (eRule l) l
  | [] => List.Forall₂.nil
  | a :: t => by
      simp only [eRule]
      by_cases hg : (eish a && eLookaheadOk t) = true
      · rw [if_pos hg]
        rw [Bool.and_eq_true] at hg
        refine List.Forall₂.cons ?_ (eRule_f2 t)
        rcases eish_eq hg.1 with rfl | rfl <;> rfl
      · rw [if_neg hg]
        exact List.Forall₂.cons (classEq7_refl a) (eRule_f2 t)

theorem eRule_est : ∀ l, eNormB (eRule l) = true
  | [] => rfl
  | a :: t => by
      simp only [eRule, eNormB]
      rw [eRule_lookahead t]
      rw [Bool.and_eq_true]
      refine ⟨?_, eRule_est t⟩
      by_cases hg : (eish a && eLookaheadOk t) = true
      · rw [if_pos hg]
        simp
      · rw [if_neg hg]
        have hgf : (eish a && eLookaheadOk t) = false := by
          cases hq : (eish a && eLookaheadOk t) with
          | false => rfl
          | true => exact absurd hq hg
        simp [hgf]

theorem eRule_id : ∀ l, eNormB l = true → eRule l = l
  | [], _ => rfl
  | a :: t, h => by
      obtain ⟨h1, h2⟩ :
          (!(eish a && eLookaheadOk t) || (a == 'E')) = true ∧ eNormB t = true := by
        simpa [eNormB, Bool.and_eq_true] using h
      simp only [eRule]
      by_cases hg : (eish a && eLookaheadOk t) = true
      · rw [if_pos hg]
        have ha : a = 'E' := by
          rw [hg] at h1
          simpa using h1
        subst ha
        rw [eRule_id t h2]
      · rw [if_neg hg]
        rw [eRule_id t h2]

theorem guard_dl_star_l (b : Char) : digitLetterGuard '*' b = false := by
  simp [digitLetterGuard, show isDigitC '*' = false from rfl]

theorem guard_dl_star_r (a : Char) : digitLetterGuard a '*' = false := by
  simp [digitLetterGuard, show isAlphaC '*' = false from rfl]

theorem guard_dl_chain {a b c : Char} (h : digitLetterGuard a b = true) :
    digitLetterGuard b c = false := by
  rw [digitLetterGuard, Bool.and_eq_true] at h
  simp [digitLetterGuard, alphaC_not_digitC h.2]

theorem guard_pd_star_l (b : Char) : parenDigitGuard '*' b = false := by
  simp [parenDigitGuard, show ('*' == ')') = false from rfl]

theorem guard_pd_star_r (a : Char) : parenDigitGuard a '*' = false := by
  simp [parenDigitGuard, show isDigitC '*' = false from rfl]

theorem guard_pd_chain {a b c : Char} (h : parenDigitGuard a b = true) :
    parenDigitGuard b c = false := by
  rw [parenDigitGuard, Bool.and_eq_true] at h
  simp [parenDigitGuard, digitC_ne_rparen h.2]

theorem guard_dp_star_l (b : Char) : digitParenGuard '*' b = false := by
  simp [digitParenGuard, show isDigitC '*' = false from rfl]

theorem guard_dp_star_r (a : Char) : digitParenGuard a '*' = false := by
  simp [digitParenGuard, show ('*' == '(') = false from rfl]

theorem guard_dp_chain {a b c : Char} (h : digitParenGuard a b = true) :
    digitParenGuard b c = false := by
  rw [digitParenGuard, Bool.and_eq_true] at h
  have hb : b = '(' := by simpa using h.2
  subst hb
  simp [digitParenGuard, show isDigitC '(' = false from rfl]

theorem guard_pp_star_l (b : Char) : parenParenGuard '*' b = false := by
  simp [parenParenGuard, show ('*' == ')') = false from rfl]

theorem guard_pp_star_r (a : Char) : parenParenGuard a '*' = false := by
  simp [parenParenGuard, show ('*' == '(') = false from rfl]

theorem guard_pp_chain {a b c : Char} (h : parenParenGuard a b = true) :
    parenParenGuard b c = false := by
  rw [parenParenGuard, Bool.and_eq_true] at h
  have hb : b = '(' := by simpa using h.2
  subst hb
  simp [parenParenGuard, show ('(' == ')') = false from rfl]

theorem compat6_dl (a a2 b b2 : Char) (h1 : classEq6 a a2 = true)
    (h2 : classEq6 b b2 = true) :
    (!(digitLetterGuard a b)) = (!(digitLetterGuard a2 b2)) := by
  obtain ⟨d1, _, _, _, _⟩ := classEq6_parts h1
  obtain ⟨_, al2, _, _, _⟩ := classEq6_parts h2
  simp [digitLetterGuard, d1, al2]

theorem compat6_pd (a a2 b b2 : Char) (h1 : classEq6 a a2 = true)
    (h2 : classEq6 b b2 = true) :
    (!(parenDigitGuard a b)) = (!(parenDigitGuard a2 b2)) := by
  obtain ⟨_, _, rp1, _, _⟩ := classEq6_parts h1
  obtain ⟨d2, _, _, _, _⟩ := classEq6_parts h2
  simp [parenDigitGuard, rp1, d2]

theorem compat6_dp (a a2 b b2 : Char) (h1 : classEq6 a a2 = true)
    (h2 : classEq6 b b2 = true) :
    (!(digitParenGuard a b)) = (!(digitParenGuard a2 b2)) := by
  obtain ⟨d1, _, _, _, _⟩ := classEq6_parts h1
  obtain ⟨_, _, _, lp2, _⟩ := classEq6_parts h2
  simp [digitParenGuard, d1, lp2]

theorem compat6_pp (a a2 b b2 : Char) (h1 : classEq6 a a2 = true)
    (h2 : classEq6 b b2 = true) :
    (!(parenParenGuard a b)) = (!(parenParenGuard a2 b2)) := by
  obtain ⟨_, _, rp1, _, _⟩ := classEq6_parts h1
  obtain ⟨_, _, _, lp2, _⟩ := classEq6_parts h2
  simp [parenParenGuard, rp1, lp2]

theorem compat6_caret (a b : Char) (h : classEq6 a b = true) :
    (!(a == '^')) = (!(b == '^')) := by
  obtain ⟨_, _, _, _, hc⟩ := classEq6_parts h
  rw [hc]

theorem compat7_pi (a a2 b b2 : Char) (h1 : classEq7 a a2 = true)
    (h2 : classEq7 b b2 = true) : piOK a b = piOK a2 b2 := by
  obtain ⟨_, p1, _, P1, _⟩ := classEq7_parts h1
  obtain ⟨_, _, i2, _, I2⟩ := classEq7_parts h2
  simp [piOK, p1, i2, P1, I2]

theorem preChain_fixed (l : List Char) : preChain (preChain l) = preChain l := by
  set P := preChain l with hP
  have hl5 : P = eRule (piRule (star2 parenParenGuard (star2 digitParenGuard
      (star2 parenDigitGuard (star2 digitLetterGuard (caretRule l)))))) := hP
  -- names for the intermediate stages of the first pass
  set s1 := caretRule l with hs1
  set s2 := star2 digitLetterGuard s1 with hs2
  set s3 := star2 parenDigitGuard s2 with hs3
  set s4 := star2 digitParenGuard s3 with hs4
  set s5 := star2 parenParenGuard s4 with hs5
  set s6 := piRule s5 with hs6
  have hP7 : P = eRule s6 := hP
  -- no caret anywhere in P
  have hnc : noCaretB P = true := by
    rw [hP7]
    show List.all (eRule s6) (fun c => !(c == '^')) = true
    rw [forall2_all _ compat6_caret ((eRule_f2 s6).imp
      (fun a b h => (classEq7_parts h).1))]
    rw [hs6]
    rw [forall2_all _ compat6_caret (piRule_f2 s5)]
    rw [hs5]
    refine star2_all _ _ rfl s4 ?_
    rw [hs4]
    refine star2_all _ _ rfl s3 ?_
    rw [hs3]
    refine star2_all _ _ rfl s2 ?_
    rw [hs2]
    refine star2_all _ _ rfl s1 ?_
    rw [hs1]
    exact caretRule_nocaret l
  -- no digit-letter adjacency in P
  have hdl : noPairB digitLetterGuard P = true := by
    rw [hP7]
    show adjAll (fun a b => !(digitLetterGuard a b)) (eRule s6) = true
    rw [forall2_adjAll _ (fun a a2 b b2 ha hb => compat6_dl a a2 b b2
      (classEq7_parts ha).1 (classEq7_parts hb).1) (eRule_f2 s6)]
    rw [show adjAll (fun a b => !(digitLetterGuard a b)) s6
        = noPairB digitLetterGuard s6 from rfl]
    rw [hs6]
    show adjAll (fun a b => !(digitLetterGuard a b)) (piRule s5) = true
    rw [forall2_adjAll _ compat6_dl (piRule_f2 s5)]
    rw [hs5]
    refine star2_pres _ _ (fun a => by simp [guard_dl_star_r a])
      (fun b => by simp [guard_dl_star_l b]) s4 ?_
    rw [hs4]
    refine star2_pres _ _ (fun a => by simp [guard_dl_star_r a])
      (fun b => by simp [guard_dl_star_l b]) s3 ?_
    rw [hs3]
    refine star2_pres _ _ (fun a => by simp [guard_dl_star_r a])
      (fun b => by simp [guard_dl_star_l b]) s2 ?_
    rw [hs2]
    exact star2_est digitLetterGuard guard_dl_star_l guard_dl_star_r
      (fun a b c h => guard_dl_chain h) s1
  -- no paren-digit adjacency in P
  have hpd : noPairB parenDigitGuard P = true := by
    rw [hP7]
    show adjAll (fun a b => !(parenDigitGuard a b)) (eRule s6) = true
    rw [forall2_adjAll _ (fun a a2 b b2 ha hb => compat6_pd a a2 b b2
      (classEq7_parts ha).1 (classEq7_parts hb).1) (eRule_f2 s6)]
    rw [show adjAll (fun a b => !(parenDigitGuard a b)) s6
        = noPairB parenDigitGuard s6 from rfl]
    rw [hs6]
    show adjAll (fun a b => !(parenDigitGuard a b)) (piRule s5) = true
    rw [forall2_adjAll _ compat6_pd (piRule_f2 s5)]
    rw [hs5]
    refine star2_pres _ _ (fun a => by simp [guard_pd_star_r a])
      (fun b => by simp [guard_pd_star_l b]) s4 ?_
    rw [hs4]
    refine star2_pres _ _ (fun a => by simp [guard_pd_star_r a])
      (fun b => by simp [guard_pd_star_l b]) s3 ?_
    rw [hs3]
    exact star2_est parenDigitGuard guard_pd_star_l guard_pd_star_r
      (fun a b c h => guard_pd_chain h) s2
  -- no digit-paren adjacency in P
  have hdp : noPairB digitParenGuard P = true := by
    rw [hP7]
    show adjAll (fun a b => !(digitParenGuard a b)) (eRule s6) = true
    rw [forall2_adjAll _ (fun a a2 b b2 ha hb => compat6_dp a a2 b b2
      (classEq7_parts ha).1 (classEq7_parts hb).1) (eRule_f2 s6)]
    rw [show adjAll (fun a b => !(digitParenGuard a b)) s6
        = noPairB digitParenGuard s6 from rfl]
    rw [hs6]
    show adjAll (fun a b => !(digitParenGuard a b)) (piRule s5) = true
    rw [forall2_adjAll _ compat6_dp (piRule_f2 s5)]
    rw [hs5]
    refine star2_pres _ _ (fun a => by simp [guard_dp_star_r a])
      (fun b => by simp [guard_dp_star_l b]) s4 ?_
    rw [hs4]
    exact star2_est digitParenGuard guard_dp_star_l guard_dp_star_r
      (fun a b c h => guard_dp_chain h) s3
  -- no paren-paren adjacency in P
  have hpp : noPairB parenParenGuard P = true := by
    rw [hP7]
    show adjAll (fun a b => !(parenParenGuard a b)) (eRule s6) = true
    rw [forall2_adjAll _ (fun a a2 b b2 ha hb => compat6_pp a a2 b b2
      (classEq7_parts ha).1 (classEq7_parts hb).1) (eRule_f2 s6)]
    rw [show adjAll (fun a b => !(parenParenGuard a b)) s6
        = noPairB parenParenGuard s6 from rfl]
    rw [hs6]
    show adjAll (fun a b => !(parenParenGuard a b)) (piRule s5) = true
    rw [forall2_adjAll _ compat6_pp (piRule_f2 s5)]
    rw [hs5]
    exact star2_est parenParenGuard guard_pp_star_l guard_pp_star_r
      (fun a b c h => guard_pp_chain h) s4
  -- every case-insensitive pi adjacency in P is already PI
  have hpi : piUpperB P = true := by
    rw [hP7]
    show adjAll piOK (eRule s6) = true
    rw [forall2_adjAll _ compat7_pi (eRule_f2 s6)]
    rw [hs6]
    exact piRule_est s5
  -- every rewritable e in P is already E
  have hen : eNormB P = true := by
    rw [hP7]
    exact eRule_est s6
  -- second pass: each rule fixes P
  show preChain P = P
  rw [show preChain P = eRule (piRule (star2 parenParenGuard (star2 digitParenGuard
    (star2 parenDigitGuard (star2 digitLetterGuard (caretRule P)))))) from rfl]
  rw [caretRule_id P hnc, star2_id digitLetterGuard P hdl,
    star2_id parenDigitGuard P hpd, star2_id digitParenGuard P hdp,
    star2_id parenParenGuard P hpp, piRule_id P hpi, eRule_id P hen]

/-- C5: the expression normalizer is idempotent — running
`preprocessExpression` on its own output returns the text unchanged; none of
the seven rewrite rules re-triggers on already-normalized text. -/
theorem preprocessExpression_idempotent :
    ∀ s : String, preprocessExpression (preprocessExpression s) = preprocessExpression s := by
  intro s
  show String.mk (preChain (String.mk (preChain s.data)).data)
      = String.mk (preChain s.data)
  exact congrArg String.mk (preChain_fixed s.data)
